import Mathlib

/-!
Verification of the Cont-Kukanov smart-order-router allocation core
(`allocator.py`) and its calibration backtester (`backtest.py`).

Embedding conventions:
* Python `int` is embedded as `ℤ` (arbitrary precision in both).
* Python `float` quantities (prices, fees, costs, weights) are embedded
  as `ℚ`; the code applies only `+ - * min max < /` to them.
* Python `float('inf')`, the initial best cost, is embedded as
  `none : Option ℚ` (`some c` is a finite cost, `none` is `+∞`).
* A Python call that can raise is embedded as an `Option`-valued
  function (`none` = an exception escapes), making `try/except` blocks
  explicit.
* Wall-clock measurements (`time.time()`, the `execution_time` field)
  are omitted: no functional behaviour reads them.
-/

namespace SOR

/-- `allocator.py` lines 5-11, the `Venue` dataclass. -/
structure Venue where
  id : String
  ask : ℚ
  ask_size : ℤ
  fee : ℚ := 0.003
  rebate : ℚ := 0.002
deriving DecidableEq

/-- The cost-model weights held by `ContKukanovAllocator` (`__init__`,
lines 17-20). -/
structure Weights where
  lambda_over : ℚ
  lambda_under : ℚ
  theta_queue : ℚ
deriving DecidableEq

/-- Python `range(0, maxv + 1, 100)` over integers: the multiples of the
100-share `step` from `0` up to `maxv` inclusive (empty when `maxv < 0`). -/
def qRange (maxv : ℤ) : List ℤ :=
  (List.range ((maxv + 100).toNat / 100)).map fun k : ℕ => (k : ℤ) * 100

/-- The body of the outer enumeration loop of
`ContKukanovAllocator.allocate` (lines 27-36): extend every partial
allocation `alloc` with each quantity `q` in
`range(0, min(order_size - sum(alloc), venue.ask_size) + 1, step)`,
with `step = 100`. -/
def expandVenue (order_size : ℤ) (splits : List (List ℤ)) (v : Venue) : List (List ℤ) :=
  splits.flatMap fun alloc =>
    (qRange (min (order_size - alloc.sum) v.ask_size)).map fun q => alloc ++ [q]

/-- The candidate-enumeration loop of `ContKukanovAllocator.allocate`
(lines 24-36), starting from `splits = [[]]`. -/
def enumSplits (order_size : ℤ) (venues : List Venue) : List (List ℤ) :=
  venues.foldl (expandVenue order_size) [[]]

/-- The body of the per-venue accumulation loop of `_compute_cost`
(lines 57-63), threading the pair `(executed, cash_spent)`. -/
def costStep (acc : ℤ × ℚ) (p : Venue × ℤ) : ℤ × ℚ :=
  let exe := min p.2 p.1.ask_size
  (acc.1 + exe,
    acc.2 + (exe : ℚ) * (p.1.ask + p.1.fee) - ((max (p.2 - exe) 0 : ℤ) : ℚ) * p.1.rebate)

/-- The per-venue accumulation loop of `_compute_cost` (lines 57-63),
over the venues paired with their split entries. -/
def costFold (venues : List Venue) (split : List ℤ) : ℤ × ℚ :=
  (venues.zip split).foldl costStep (0, 0)

/-- `ContKukanovAllocator._compute_cost` (lines 52-71).  The Python loop
indexes `split[i]` for every `i < len(venues)` and raises `IndexError`
when `split` is shorter than `venues`; that failure is the `none`
branch.  Otherwise the loop touches exactly the venues paired with their
split entries (extra split entries are never read). -/
def compute_cost (w : Weights) (split : List ℤ) (venues : List Venue)
    (order_size : ℤ) : Option ℚ :=
  if venues.length ≤ split.length then
    let ec := costFold venues split
    let underfill := max (order_size - ec.1) 0
    let overfill := max (ec.1 - order_size) 0
    let risk_penalty := w.theta_queue * ((underfill : ℚ) + (overfill : ℚ))
    let cost_penalty := w.lambda_under * (underfill : ℚ) + w.lambda_over * (overfill : ℚ)
    some (ec.2 + risk_penalty + cost_penalty)
  else none

/-- `cost < best_cost` where `best_cost` may still be the initial
`float('inf')` (the `none` case). -/
def ltInf (c : ℚ) : Option ℚ → Prop
  | none => True
  | some b => c < b

instance ltInfDec (c : ℚ) : (b : Option ℚ) → Decidable (ltInf c b)
  | none => isTrue trivial
  | some b => inferInstanceAs (Decidable (c < b))

/-- One iteration of the selection loop of `allocate` (lines 41-48):
skip candidates whose sum differs from `order_size`, otherwise score the
candidate and keep it exactly when its cost is strictly below the best
so far; `none` propagates a `_compute_cost` exception. -/
def allocStep (w : Weights) (order_size : ℤ) (venues : List Venue)
    (best : List ℤ × Option ℚ) (alloc : List ℤ) : Option (List ℤ × Option ℚ) :=
  if alloc.sum ≠ order_size then some best
  else
    match compute_cost w alloc venues order_size with
    | none => none
    | some cost => some (if ltInf cost best.2 then (alloc, some cost) else best)

/-- `ContKukanovAllocator.allocate` (lines 22-50): enumerate the
candidates, then fold the selection loop from `best_split = []`,
`best_cost = float('inf')`.  A `none` result models an uncaught
exception. -/
def allocate (w : Weights) (order_size : ℤ) (venues : List Venue) :
    Option (List ℤ × Option ℚ) :=
  (enumSplits order_size venues).foldlM (allocStep w order_size venues) ([], none)

/-- The pure cash component of a split as the spec states it (§8):
`Σ split_i * (ask_i + fee_i)`. -/
def cashOf (venues : List Venue) (split : List ℤ) : ℚ :=
  ((venues.zip split).map fun p => (p.2 : ℚ) * (p.1.ask + p.1.fee)).sum

/-- One raw market-data record inside a snapshot handed to
`create_venues_from_snapshot` (`publisher_id` already passed through
Python `str(...)`). -/
structure MarketRecord where
  publisher_id : String
  ask_px_00 : ℚ
  ask_sz_00 : ℤ
deriving DecidableEq

/-- One iteration of the `venue_data` dict-building loop of
`create_venues_from_snapshot` (`allocator.py` lines 82-89): a Python
dict preserves insertion order, so it is embedded as an ordered
association list; the first record for a key wins, later duplicates are
ignored. -/
def dictStep (m : List (String × ℚ × ℤ)) (record : MarketRecord) : List (String × ℚ × ℤ) :=
  if m.any fun p => p.1 == record.publisher_id then m
  else m ++ [(record.publisher_id, record.ask_px_00, record.ask_sz_00)]

/-- `create_venues_from_snapshot`, final loop (lines 91-96): one `Venue`
per `venue_data` entry, in dict insertion order, with the default fee
and rebate. -/
def create_venues_from_snapshot (snapshot_data : List MarketRecord) : List Venue :=
  let venue_data : List (String × ℚ × ℤ) := snapshot_data.foldl dictStep []
  venue_data.map fun p => { id := p.1, ask := p.2.1, ask_size := p.2.2 }

/-- One venue record inside a consumed snapshot
(`snapshot['venues']` in `backtest.py`). -/
structure VenueData where
  publisher_id : String
  ask_px_00 : ℚ
  ask_sz_00 : ℤ
deriving DecidableEq

/-- One Kafka market snapshot, reduced to the only field the replay
reads. -/
structure Snapshot where
  venues : List VenueData
deriving DecidableEq

/-- `ExecutionResult` (`benchmark_strategies.py` lines 6-11), without
the wall-clock `execution_time` field. -/
structure ExecutionResult where
  total_cash : ℚ
  shares_filled : ℤ
  avg_fill_px : ℚ
deriving DecidableEq

/-- The accumulated trial state of `_test_strategy` (lines 79-83). -/
structure TradeState where
  total_cash : ℚ
  shares_filled : ℤ
  remaining : ℤ
deriving DecidableEq

/-- The venue extraction of `_test_strategy` (lines 89-96): keep the
records with positive price and positive size, with default fee and
rebate. -/
def extractVenues (s : Snapshot) : List Venue :=
  (s.venues.filter fun vd => decide (0 < vd.ask_px_00) && decide (0 < vd.ask_sz_00)).map
    fun vd => { id := vd.publisher_id, ask := vd.ask_px_00, ask_size := vd.ask_sz_00 }

/-- An allocator as the replay sees it: `none` models an exception
escaping `allocator.allocate`. -/
abbrev AllocFn := ℤ → List Venue → Option (List ℤ × Option ℚ)

/-- The execution loop of `_test_strategy` (lines 106-113).  The Python
loop runs over `enumerate(venues)` guarded by `i < len(allocation)` and
`allocation[i] > 0`, i.e. it acts exactly on the venues paired with
their allocation entries; venues beyond the allocation length are left
untouched. -/
def fillStep (st : TradeState) (p : Venue × ℤ) : TradeState :=
  if 0 < p.2 then
    let shares_to_buy := min (min p.2 p.1.ask_size) st.remaining
    if 0 < shares_to_buy then
      { total_cash := st.total_cash + (shares_to_buy : ℚ) * (p.1.ask + p.1.fee),
        shares_filled := st.shares_filled + shares_to_buy,
        remaining := st.remaining - shares_to_buy }
    else st
  else st

/-- The execution loop of `_test_strategy` (lines 106-113), folding
`fillStep` over the venue/allocation pairs. -/
def fillLoop (allocation : List ℤ) (venues : List Venue) (st : TradeState) : TradeState :=
  (venues.zip allocation).foldl fillStep st

/-- The snapshot replay loop of `_test_strategy` (lines 85-116): break
once `remaining_shares ≤ 0`, skip snapshots with no valid venue, run the
allocator inside `try/except` (an exception leaves the state untouched
and the loop moves to the next snapshot), and execute the returned
allocation otherwise. -/
def runSnapshots (alloc : AllocFn) (target_shares : ℤ) :
    List Snapshot → TradeState → TradeState
  | [], st => st
  | s :: rest, st =>
    if st.remaining ≤ 0 then st
    else
      let venues := extractVenues s
      if venues = [] then runSnapshots alloc target_shares rest st
      else
        match alloc (min st.remaining target_shares) venues with
        | none => runSnapshots alloc target_shares rest st
        | some p => runSnapshots alloc target_shares rest (fillLoop p.1 venues st)

/-- `SORBacktester._test_strategy` (lines 72-121): `None` when no
snapshots were received, otherwise replay every snapshot from a fresh
state and report the realized totals. -/
def test_strategy (alloc : AllocFn) (target_shares : ℤ) (snaps : List Snapshot) :
    Option ExecutionResult :=
  match snaps with
  | [] => none
  | _ =>
    let st := runSnapshots alloc target_shares snaps ⟨0, 0, target_shares⟩
    some ⟨st.total_cash, st.shares_filled,
      if 0 < st.shares_filled then st.total_cash / (st.shares_filled : ℚ) else 0⟩

/-- The grid values of `parameter_search` (`backtest.py` lines 38-40). -/
def lambda_over_values : List ℚ := [0.2, 0.4, 0.6, 0.8, 1.0]

/-- The grid values of `parameter_search` (`backtest.py` lines 38-40). -/
def lambda_under_values : List ℚ := [0.3, 0.5, 0.7, 0.9, 1.1]

/-- The grid values of `parameter_search` (`backtest.py` lines 38-40). -/
def theta_queue_values : List ℚ := [0.1, 0.3, 0.5, 0.7, 0.9]

/-- The 125 weight triples in the nesting order of the three `for`
loops of `parameter_search` (lines 49-51). -/
def gridTriples : List Weights :=
  lambda_over_values.flatMap fun lo =>
    lambda_under_values.flatMap fun lu =>
      theta_queue_values.map fun tq => ⟨lo, lu, tq⟩

/-- One grid point of `parameter_search` (lines 52-64), as a function of
the received snapshots and the target share count: run the trial for
weight triple `w`; the trial result replaces the incumbent exactly when
it exists (`if result`) and its realized `total_cash` is strictly below
the best cash so far. -/
def gridStep (target_shares : ℤ) (snaps : List Snapshot)
    (best : Option Weights × Option ℚ × Option ExecutionResult) (w : Weights) :
    Option Weights × Option ℚ × Option ExecutionResult :=
  match test_strategy (allocate w) target_shares snaps with
  | none => best
  | some result =>
    if ltInf result.total_cash best.2.1 then
      (some w, some result.total_cash, some result)
    else best

/-- `SORBacktester.parameter_search` (lines 33-70): fold `gridStep` over
the 125 grid points from `best_params = {}` (the `none` component),
`best_cost = float('inf')`, `best_result = None`; return
`(best_params, best_result)`. -/
def parameter_search (target_shares : ℤ) (snaps : List Snapshot) :
    Option Weights × Option ExecutionResult :=
  let final :=
    gridTriples.foldl (gridStep target_shares snaps)
      ((none : Option Weights), (none : Option ℚ), (none : Option ExecutionResult))
  (final.1, final.2.2)

/-! ### Structure of the enumerated candidates -/

/-- What the enumeration guarantees for one split entry: non-negative,
capped by the venue's displayed size, and a multiple of the 100-share
step. -/
def entryOK (v : Venue) (q : ℤ) : Prop :=
  0 ≤ q ∧ q ≤ v.ask_size ∧ (100 : ℤ) ∣ q

theorem mem_qRange {q maxv : ℤ} :
    q ∈ qRange maxv ↔ 0 ≤ q ∧ q ≤ maxv ∧ (100 : ℤ) ∣ q := by
  constructor
  · intro h
    unfold qRange at h
    obtain ⟨k, hk, rfl⟩ := (List.mem_map (f := fun k : ℕ => (k : ℤ) * 100)).mp h
    rw [List.mem_range] at hk
    have h1 : (k + 1) * 100 ≤ (maxv + 100).toNat :=
      le_trans (Nat.mul_le_mul_right _ hk) (Nat.div_mul_le_self _ 100)
    exact ⟨by omega, by omega, ⟨k, by ring⟩⟩
  · rintro ⟨h0, hle, c, hc⟩
    have h1 : (c.toNat + 1) * 100 ≤ (maxv + 100).toNat := by omega
    have h2 : c.toNat + 1 ≤ (maxv + 100).toNat / 100 :=
      (Nat.le_div_iff_mul_le (by norm_num)).mpr h1
    unfold qRange
    refine (List.mem_map (f := fun k : ℕ => (k : ℤ) * 100)).mpr
      ⟨c.toNat, List.mem_range.mpr ?_, ?_⟩
    · omega
    · omega

theorem mem_expand_foldl (os : ℤ) :
    ∀ (vs : List Venue) (init : List (List ℤ)) (b : List ℤ),
      b ∈ vs.foldl (expandVenue os) init →
      ∃ a ∈ init, ∃ ext, b = a ++ ext ∧ List.Forall₂ entryOK vs ext := by
  intro vs
  induction vs with
  | nil =>
    intro init b hb
    exact ⟨b, hb, [], by simp, List.Forall₂.nil⟩
  | cons v vs ih =>
    intro init b hb
    rw [List.foldl_cons] at hb
    obtain ⟨a, ha, ext, rfl, h2⟩ := ih (expandVenue os init v) b hb
    simp only [expandVenue, List.mem_flatMap, List.mem_map] at ha
    obtain ⟨al, hal, q, hq, rfl⟩ := ha
    rw [mem_qRange] at hq
    refine ⟨al, hal, q :: ext, by simp, List.Forall₂.cons ⟨hq.1, le_trans hq.2.1 (min_le_right _ _), hq.2.2⟩ h2⟩

theorem mem_enumSplits {os : ℤ} {vs : List Venue} {a : List ℤ}
    (h : a ∈ enumSplits os vs) : List.Forall₂ entryOK vs a := by
  obtain ⟨a0, ha0, ext, rfl, h2⟩ := mem_expand_foldl os vs [[]] a h
  simp only [List.mem_singleton] at ha0
  subst ha0
  simpa using h2

/-! ### The cost model on feasible candidates -/

theorem costFold_go {vs : List Venue} {a : List ℤ}
    (h : List.Forall₂ (fun v q => 0 ≤ q ∧ q ≤ v.ask_size) vs a) :
    ∀ e c, (vs.zip a).foldl costStep (e, c) = (e + a.sum, c + cashOf vs a) := by
  induction h with
  | nil => intro e c; simp [cashOf]
  | cons hp htail ih =>
    intro e c
    rename_i v q vs' qs
    have hmin : min q v.ask_size = q := min_eq_left hp.2
    simp only [List.zip_cons_cons, List.foldl_cons, costStep, hmin]
    rw [ih]
    refine Prod.ext (by simp [add_assoc]) ?_
    simp [cashOf]
    ring

theorem costFold_feasible {vs : List Venue} {a : List ℤ}
    (h : List.Forall₂ (fun v q => 0 ≤ q ∧ q ≤ v.ask_size) vs a) :
    costFold vs a = (a.sum, cashOf vs a) := by
  have := costFold_go h 0 0
  simpa [costFold] using this

theorem compute_cost_feasible (w : Weights) {os : ℤ} {vs : List Venue} {a : List ℤ}
    (h : List.Forall₂ entryOK vs a) (hs : a.sum = os) :
    compute_cost w a vs os = some (cashOf vs a) := by
  have hlen : vs.length ≤ a.length := le_of_eq h.length_eq
  have hcf : costFold vs a = (a.sum, cashOf vs a) :=
    costFold_feasible (List.Forall₂.imp (fun _ _ hp => ⟨hp.1, hp.2.1⟩) h)
  simp only [compute_cost, if_pos hlen, hcf, hs]
  norm_num

/-! ### The selection loop -/

/-- Invariant of the running best of the selection loop: either still
the initial `([], +∞)`, or a feasible enumerated candidate together
with its pure cash cost. -/
def goodBest (os : ℤ) (vs : List Venue) (b : List ℤ × Option ℚ) : Prop :=
  b = ([], none) ∨
    (List.Forall₂ entryOK vs b.1 ∧ b.1.sum = os ∧ b.2 = some (cashOf vs b.1))

theorem selection_master (w : Weights) (os : ℤ) (vs : List Venue) :
    ∀ l : List (List ℤ), (∀ a ∈ l, List.Forall₂ entryOK vs a) →
      ∀ b, goodBest os vs b →
        ∃ r, l.foldlM (allocStep w os vs) b = some r ∧ goodBest os vs r ∧
          ((∃ a ∈ l, a.sum = os) → r.2.isSome) ∧
          (b.2.isSome → r.2.isSome) ∧
          ((∀ a ∈ l, a.sum ≠ os) → r = b) := by
  intro l
  induction l with
  | nil =>
    intro _ b hb
    exact ⟨b, rfl, hb, by simp, fun h => h, fun _ => rfl⟩
  | cons a l ih =>
    intro hl b hb
    have hmem : List.Forall₂ entryOK vs a := hl a (List.mem_cons_self a l)
    have hl' : ∀ x ∈ l, List.Forall₂ entryOK vs x := fun x hx => hl x (List.mem_cons_of_mem _ hx)
    rw [List.foldlM_cons]
    by_cases ha : a.sum = os
    · have hcc : compute_cost w a vs os = some (cashOf vs a) := compute_cost_feasible w hmem ha
      have hstep : allocStep w os vs b a =
          some (if ltInf (cashOf vs a) b.2 then (a, some (cashOf vs a)) else b) := by
        simp [allocStep, ha, hcc]
      rw [hstep]
      set b' := if ltInf (cashOf vs a) b.2 then (a, some (cashOf vs a)) else b with hb'
      have hgood' : goodBest os vs b' := by
        rw [hb']
        split
        · exact Or.inr ⟨hmem, ha, rfl⟩
        · exact hb
      have hsome' : b'.2.isSome := by
        rw [hb']
        split
        · rfl
        · rename_i hlt
          match h2 : b.2 with
          | some c => rfl
          | none => exact absurd (by rw [h2]; trivial) hlt
      obtain ⟨r, hr, hrg, _, hrs, _⟩ := ih hl' b' hgood'
      exact ⟨r, by simpa using hr, hrg, fun _ => hrs hsome', fun _ => hrs hsome',
        fun hno => absurd ha (hno a (List.mem_cons_self a l))⟩
    · have hstep : allocStep w os vs b a = some b := by
        simp [allocStep, ha]
      rw [hstep]
      obtain ⟨r, hr, hrg, hre, hrs, hrb⟩ := ih hl' b hb
      refine ⟨r, by simpa using hr, hrg, ?_, hrs, ?_⟩
      · rintro ⟨x, hx, hxs⟩
        rcases List.mem_cons.mp hx with rfl | hx'
        · exact absurd hxs ha
        · exact hre ⟨x, hx', hxs⟩
      · intro hno
        exact hrb fun x hx => hno x (List.mem_cons_of_mem _ hx)

theorem allocate_spec (w : Weights) (os : ℤ) (vs : List Venue) :
    ∃ r, allocate w os vs = some r ∧ goodBest os vs r ∧
      ((∃ a ∈ enumSplits os vs, a.sum = os) → r.2.isSome) ∧
      ((∀ a ∈ enumSplits os vs, a.sum ≠ os) → r = ([], none)) := by
  obtain ⟨r, hr, hg, he, _, hn⟩ :=
    selection_master w os vs (enumSplits os vs) (fun a ha => mem_enumSplits ha)
      ([], none) (Or.inl rfl)
  exact ⟨r, hr, hg, he, hn⟩

/-- `allocate` never raises: the selection loop only ever scores
candidates of full venue length, so `_compute_cost` cannot fail. -/
theorem allocate_isSome (w : Weights) (os : ℤ) (vs : List Venue) :
    (allocate w os vs).isSome := by
  obtain ⟨r, hr, -⟩ := allocate_spec w os vs
  rw [hr]; rfl

theorem allocate_goodBest {w : Weights} {os : ℤ} {vs : List Venue}
    {split : List ℤ} {cost : Option ℚ}
    (h : allocate w os vs = some (split, cost)) : goodBest os vs (split, cost) := by
  obtain ⟨r, hr, hg, -⟩ := allocate_spec w os vs
  rw [h] at hr
  exact (Option.some_injective _ hr.symm) ▸ hg

theorem allocate_nonempty {w : Weights} {os : ℤ} {vs : List Venue}
    {split : List ℤ} {cost : Option ℚ}
    (h : allocate w os vs = some (split, cost)) (hne : split ≠ []) :
    List.Forall₂ entryOK vs split ∧ split.sum = os ∧ cost = some (cashOf vs split) := by
  rcases allocate_goodBest h with h0 | h1
  · exact absurd (congrArg Prod.fst h0) hne
  · exact h1

/-! ### Weight independence of the search -/

theorem foldlM_allocStep_indep (w w' : Weights) (os : ℤ) (vs : List Venue) :
    ∀ l : List (List ℤ), (∀ a ∈ l, List.Forall₂ entryOK vs a) →
      ∀ b, l.foldlM (allocStep w os vs) b = l.foldlM (allocStep w' os vs) b := by
  intro l
  induction l with
  | nil => intro _ b; rfl
  | cons a l ih =>
    intro hl b
    have hmem : List.Forall₂ entryOK vs a := hl a (List.mem_cons_self a l)
    have hl' : ∀ x ∈ l, List.Forall₂ entryOK vs x := fun x hx => hl x (List.mem_cons_of_mem _ hx)
    rw [List.foldlM_cons, List.foldlM_cons]
    by_cases ha : a.sum = os
    · have h1 : allocStep w os vs b a = allocStep w' os vs b a := by
        simp [allocStep, ha, compute_cost_feasible w hmem ha, compute_cost_feasible w' hmem ha]
      rw [h1]
      cases allocStep w' os vs b a with
      | none => rfl
      | some b' => simpa using ih hl' b'
    · have h1 : allocStep w os vs b a = some b := by simp [allocStep, ha]
      have h2 : allocStep w' os vs b a = some b := by simp [allocStep, ha]
      rw [h1, h2]
      simpa using ih hl' b

/-- The chosen split and cost do not depend on the weight triple at
all: every scored candidate has zero penalty terms. -/
theorem allocate_indep (w w' : Weights) (os : ℤ) (vs : List Venue) :
    allocate w os vs = allocate w' os vs :=
  foldlM_allocStep_indep w w' os vs (enumSplits os vs)
    (fun _ ha => mem_enumSplits ha) ([], none)

/-- Index-wise form of the enumeration guarantees, for a non-empty
returned split. -/
theorem allocate_entry_facts {w : Weights} {os : ℤ} {vs : List Venue}
    {split : List ℤ} {cost : Option ℚ}
    (h : allocate w os vs = some (split, cost)) (hne : split ≠ [])
    {i : ℕ} (hi : i < split.length) :
    0 ≤ split.getD i 0 ∧
      split.getD i 0 ≤ (vs.getD i { id := "", ask := 0, ask_size := 0, fee := 0, rebate := 0 }).ask_size ∧
      (100 : ℤ) ∣ split.getD i 0 := by
  obtain ⟨h1, -, -⟩ := allocate_nonempty h hne
  have hiv : i < vs.length := h1.length_eq ▸ hi
  have hR := h1.get hiv hi
  have e1 : split.getD i 0 = split.get ⟨i, hi⟩ := by
    rw [List.getD_eq_getElem?_getD, List.getElem?_eq_getElem hi]
    simp
  have e2 : (vs.getD i { id := "", ask := 0, ask_size := 0, fee := 0, rebate := 0 }) = vs.get ⟨i, hiv⟩ := by
    rw [List.getD_eq_getElem?_getD, List.getElem?_eq_getElem hiv]
    simp
  rw [e1, e2]
  exact hR

/-! ### Claim theorems for the allocation search -/

/-- C1: for every order size and venue list for which at least one
feasible split exists, `allocate` returns the identical split and an
identical cost equal to that split's pure cash component
`Σ split_i * (ask_i + fee_i)`, under every choice of the weight triple:
the weights never affect which candidate is chosen. -/
theorem weight_invariance (w w' : Weights) (os : ℤ) (vs : List Venue)
    (hfeas : ∃ a ∈ enumSplits os vs, a.sum = os) :
    allocate w os vs = allocate w' os vs ∧
    ∃ split c, allocate w os vs = some (split, some c) ∧ c = cashOf vs split := by
  refine ⟨allocate_indep w w' os vs, ?_⟩
  obtain ⟨r, hr, hg, he, -⟩ := allocate_spec w os vs
  have hs : r.2.isSome := he hfeas
  rcases hg with h0 | ⟨-, -, h3⟩
  · rw [h0] at hs
    simp at hs
  · exact ⟨r.1, cashOf vs r.1, by rw [hr]; exact congrArg some (Prod.ext rfl h3), rfl⟩

/-- C1 witness: two different weight triples, one venue of size 100,
order size 100: the feasible split `[100]` exists and the conclusion
holds. -/
theorem weight_invariance_witness :
    ([100] ∈ enumSplits 100 [{ id := "A", ask := 10, ask_size := 100 : Venue }] ∧
      ([100] : List ℤ).sum = 100) ∧
    (allocate ⟨0.2, 0.3, 0.1⟩ 100 [{ id := "A", ask := 10, ask_size := 100 : Venue }] =
        allocate ⟨1, 1.1, 0.9⟩ 100 [{ id := "A", ask := 10, ask_size := 100 : Venue }] ∧
      ∃ split c,
        allocate ⟨0.2, 0.3, 0.1⟩ 100 [{ id := "A", ask := 10, ask_size := 100 : Venue }] =
          some (split, some c) ∧
        c = cashOf [{ id := "A", ask := 10, ask_size := 100 : Venue }] split) :=
  ⟨⟨by decide, by decide⟩,
    weight_invariance ⟨0.2, 0.3, 0.1⟩ ⟨1, 1.1, 0.9⟩ 100 _ ⟨[100], by decide, by decide⟩⟩

/-- C2: for every positive order size, whenever `allocate` returns a
non-empty split, that split has one entry per venue and its entries sum
exactly to the order size. -/
theorem feasibility_sum_invariant (w : Weights) (os : ℤ) (vs : List Venue)
    (split : List ℤ) (cost : Option ℚ) (_hos : 0 < os)
    (h : allocate w os vs = some (split, cost)) (hne : split ≠ []) :
    split.length = vs.length ∧ split.sum = os := by
  obtain ⟨h1, h2, -⟩ := allocate_nonempty h hne
  exact ⟨h1.length_eq.symm, h2⟩

/-- C2 witness: one venue of size 100, order size 100, returned split
`[100]`. -/
theorem feasibility_sum_invariant_witness :
    (0 : ℤ) < 100 ∧
    allocate ⟨0.2, 0.3, 0.1⟩ 100 [{ id := "A", ask := 10, ask_size := 100 : Venue }] =
      some ([100],
        ((allocate ⟨0.2, 0.3, 0.1⟩ 100
          [{ id := "A", ask := 10, ask_size := 100 : Venue }]).getD ([], none)).2) ∧
    ([100] : List ℤ) ≠ [] ∧
    (([100] : List ℤ).length = [{ id := "A", ask := 10, ask_size := 100 : Venue }].length ∧
      ([100] : List ℤ).sum = 100) :=
  ⟨by decide, rfl, by decide,
    feasibility_sum_invariant ⟨0.2, 0.3, 0.1⟩ 100 _ [100] _ (by decide) rfl (by decide)⟩

/-- C3: the search surfaces infeasibility as `([], +∞)` and never as an
exception; it returns `([], +∞)` exactly when no enumerated candidate
sums to the order size; a single venue of size 50 cannot fill an order
of 100; with zero venues every positive order size is infeasible while
order size 0 is feasible. -/
theorem infeasibility_handling :
    (∀ (w : Weights) (os : ℤ) (vs : List Venue), (allocate w os vs).isSome) ∧
    (∀ (w : Weights) (os : ℤ) (vs : List Venue),
      allocate w os vs = some ([], none) ↔ ∀ a ∈ enumSplits os vs, a.sum ≠ os) ∧
    (∀ w : Weights,
      allocate w 100 [{ id := "A", ask := 9, ask_size := 50 : Venue }] = some ([], none)) ∧
    (∀ (w : Weights) (os : ℤ), 0 < os → allocate w os [] = some ([], none)) ∧
    (∀ w : Weights, allocate w 0 [] = some ([], some 0)) := by
  have hiff : ∀ (w : Weights) (os : ℤ) (vs : List Venue),
      allocate w os vs = some ([], none) ↔ ∀ a ∈ enumSplits os vs, a.sum ≠ os := by
    intro w os vs
    constructor
    · intro h a ha hsum
      obtain ⟨r, hr, -, he, -⟩ := allocate_spec w os vs
      rw [h] at hr
      have hre : r = ([], none) := Option.some_injective _ hr.symm
      have h2 := he ⟨a, ha, hsum⟩
      rw [hre] at h2
      simp at h2
    · intro hno
      obtain ⟨r, hr, -, -, hn⟩ := allocate_spec w os vs
      rw [hr, hn hno]
  refine ⟨fun w os vs => allocate_isSome w os vs, hiff, ?_, ?_, ?_⟩
  · intro w
    exact (hiff w 100 _).mpr (by decide)
  · intro w os hos
    refine (hiff w os []).mpr ?_
    intro a ha
    have ha' : a = [] := by simpa [enumSplits] using ha
    subst ha'
    simpa using (by omega : (0 : ℤ) ≠ os)
  · intro w
    have h1 : compute_cost w [] [] 0 = some (cashOf [] []) :=
      compute_cost_feasible w List.Forall₂.nil rfl
    have h2 : cashOf [] [] = 0 := by simp [cashOf]
    rw [h2] at h1
    simp [allocate, enumSplits, allocStep, h1, ltInf]

/-- C3 witness: with zero venues an order of 7 shares is infeasible. -/
theorem infeasibility_handling_witness :
    (0 : ℤ) < 7 ∧ allocate ⟨0.2, 0.3, 0.1⟩ 7 [] = some ([], none) :=
  ⟨by decide, infeasibility_handling.2.2.2.1 ⟨0.2, 0.3, 0.1⟩ 7 (by decide)⟩

/-- C5: a venue whose displayed size is below the 100-share step is
always assigned quantity 0; concretely, with A(ask 9.00, size 40) and
B(ask 10.00, size 500) and order size 100, the split is `[0, 100]` and
the cost `100 * (10.00 + 0.003) = 1000.3` comes from venue B alone. -/
theorem granularity_starvation :
    (∀ (w : Weights) (os : ℤ) (vs : List Venue) (split : List ℤ) (cost : Option ℚ),
      allocate w os vs = some (split, cost) →
      ∀ i, i < split.length →
        (vs.getD i { id := "", ask := 0, ask_size := 0, fee := 0, rebate := 0 }).ask_size < 100 →
        split.getD i 0 = 0) ∧
    (∀ w : Weights,
      allocate w 100 [{ id := "A", ask := 9, ask_size := 40 : Venue },
          { id := "B", ask := 10, ask_size := 500 : Venue }] =
        some ([0, 100], some 1000.3)) := by
  constructor
  · intro w os vs split cost h i hi hsmall
    rcases List.eq_nil_or_concat split with rfl | -
    · simp at hi
    · have hne : split ≠ [] := by
        intro he
        rw [he] at hi
        simp at hi
      obtain ⟨h0, h1, h2⟩ := allocate_entry_facts h hne hi
      omega
  · intro w
    rw [allocate_indep w ⟨0.2, 0.3, 0.1⟩]
    have h0 : allocate ⟨0.2, 0.3, 0.1⟩ 100 [{ id := "A", ask := 9, ask_size := 40 : Venue },
        { id := "B", ask := 10, ask_size := 500 : Venue }] =
        some ([0, 100],
          ((allocate ⟨0.2, 0.3, 0.1⟩ 100 [{ id := "A", ask := 9, ask_size := 40 : Venue },
            { id := "B", ask := 10, ask_size := 500 : Venue }]).getD ([], none)).2) := rfl
    obtain ⟨-, -, h3⟩ := allocate_nonempty h0 (by decide)
    rw [h0, h3]
    norm_num [cashOf]

/-- C5 witness: in the concrete A/B example, venue A (index 0, size 40)
is assigned 0. -/
theorem granularity_starvation_witness :
    allocate ⟨0.2, 0.3, 0.1⟩ 100 [{ id := "A", ask := 9, ask_size := 40 : Venue },
        { id := "B", ask := 10, ask_size := 500 : Venue }] =
      some ([0, 100],
        ((allocate ⟨0.2, 0.3, 0.1⟩ 100 [{ id := "A", ask := 9, ask_size := 40 : Venue },
          { id := "B", ask := 10, ask_size := 500 : Venue }]).getD ([], none)).2) ∧
    (0 : ℕ) < 2 ∧
    ([{ id := "A", ask := 9, ask_size := 40 : Venue },
        { id := "B", ask := 10, ask_size := 500 : Venue }].getD 0
      { id := "", ask := 0, ask_size := 0, fee := 0, rebate := 0 }).ask_size < 100 ∧
    ([0, 100] : List ℤ).getD 0 0 = 0 :=
  ⟨rfl, by decide, by decide,
    granularity_starvation.1 ⟨0.2, 0.3, 0.1⟩ 100
      [{ id := "A", ask := 9, ask_size := 40 : Venue },
        { id := "B", ask := 10, ask_size := 500 : Venue }] [0, 100]
      ((allocate ⟨0.2, 0.3, 0.1⟩ 100 [{ id := "A", ask := 9, ask_size := 40 : Venue },
        { id := "B", ask := 10, ask_size := 500 : Venue }]).getD ([], none)).2
      rfl 0 (by decide) (by decide)⟩

/-- C6: every entry of a non-empty returned split lies between 0 and the
venue's displayed size and is a multiple of the 100-share step (the
enumeration in fact never produces a non-multiple, so the claim's
capped-below-a-step exception never materializes). -/
theorem capacity_invariant (w : Weights) (os : ℤ) (vs : List Venue)
    (split : List ℤ) (cost : Option ℚ)
    (h : allocate w os vs = some (split, cost)) (hne : split ≠ []) :
    ∀ i, i < split.length →
      0 ≤ split.getD i 0 ∧
      split.getD i 0 ≤ (vs.getD i { id := "", ask := 0, ask_size := 0, fee := 0, rebate := 0 }).ask_size ∧
      (100 : ℤ) ∣ split.getD i 0 := by
  intro i hi
  exact allocate_entry_facts h hne hi

/-- C6 witness: the A/B example split `[0, 100]` at index 1. -/
theorem capacity_invariant_witness :
    allocate ⟨0.2, 0.3, 0.1⟩ 100 [{ id := "A", ask := 9, ask_size := 40 : Venue },
        { id := "B", ask := 10, ask_size := 500 : Venue }] =
      some ([0, 100],
        ((allocate ⟨0.2, 0.3, 0.1⟩ 100 [{ id := "A", ask := 9, ask_size := 40 : Venue },
          { id := "B", ask := 10, ask_size := 500 : Venue }]).getD ([], none)).2) ∧
    ([0, 100] : List ℤ) ≠ [] ∧ (1 : ℕ) < 2 ∧
    (0 ≤ ([0, 100] : List ℤ).getD 1 0 ∧
      ([0, 100] : List ℤ).getD 1 0 ≤
        ([{ id := "A", ask := 9, ask_size := 40 : Venue },
          { id := "B", ask := 10, ask_size := 500 : Venue }].getD 1
            { id := "", ask := 0, ask_size := 0, fee := 0, rebate := 0 }).ask_size ∧
      (100 : ℤ) ∣ ([0, 100] : List ℤ).getD 1 0) :=
  ⟨rfl, by decide, by decide,
    capacity_invariant ⟨0.2, 0.3, 0.1⟩ 100
      [{ id := "A", ask := 9, ask_size := 40 : Venue },
        { id := "B", ask := 10, ask_size := 500 : Venue }] [0, 100]
      ((allocate ⟨0.2, 0.3, 0.1⟩ 100 [{ id := "A", ask := 9, ask_size := 40 : Venue },
        { id := "B", ask := 10, ask_size := 500 : Venue }]).getD ([], none)).2
      rfl (by decide) 1 (by decide)⟩

/-! ### The replay loop -/

theorem runSnapshots_nonpos (alloc : AllocFn) (t : ℤ) (l : List Snapshot)
    {st : TradeState} (h : st.remaining ≤ 0) : runSnapshots alloc t l st = st := by
  cases l with
  | nil => rfl
  | cons s rest => simp [runSnapshots, h]

theorem forall₂_sum_nonneg {vs : List Venue} {a : List ℤ}
    (h : List.Forall₂ (fun v q => 0 ≤ q ∧ q ≤ v.ask_size) vs a) : 0 ≤ a.sum := by
  induction h with
  | nil => simp
  | cons hp _ ih => rw [List.sum_cons]; exact add_nonneg hp.1 ih

/-- When every allocation entry is within its venue's displayed size and
the allocation total does not exceed the remaining shares, the execution
loop buys every entry in full. -/
theorem fillLoop_closed {vs : List Venue} {a : List ℤ}
    (h : List.Forall₂ (fun v q => 0 ≤ q ∧ q ≤ v.ask_size) vs a) :
    ∀ st : TradeState, a.sum ≤ st.remaining →
      fillLoop a vs st =
        ⟨st.total_cash + cashOf vs a, st.shares_filled + a.sum, st.remaining - a.sum⟩ := by
  induction h with
  | nil =>
    intro st _
    cases st
    simp [fillLoop, cashOf]
  | cons hp htail ih =>
    rename_i v q vs' qs
    intro st hsum
    have hq0 : 0 ≤ qs.sum := forall₂_sum_nonneg htail
    rw [List.sum_cons] at hsum
    show (List.foldl fillStep st ((v, q) :: vs'.zip qs)) = _
    rw [List.foldl_cons]
    by_cases hpos : 0 < q
    · have hstep : fillStep st (v, q) =
          ⟨st.total_cash + (q : ℚ) * (v.ask + v.fee), st.shares_filled + q, st.remaining - q⟩ := by
        have hqask : min q v.ask_size = q := min_eq_left hp.2
        have hqrem : min q st.remaining = q := min_eq_left (by omega)
        simp [fillStep, hpos, hqask, hqrem]
      rw [hstep]
      have hih := ih ⟨st.total_cash + (q : ℚ) * (v.ask + v.fee), st.shares_filled + q,
        st.remaining - q⟩ (by simp only []; omega)
      rw [fillLoop] at hih
      rw [hih]
      simp only [TradeState.mk.injEq, cashOf, List.zip_cons_cons, List.map_cons, List.sum_cons]
      refine ⟨by ring, by omega, by omega⟩
    · have hq : q = 0 := le_antisymm (not_lt.mp hpos) hp.1
      subst hq
      have hstep : fillStep st (v, 0) = st := by simp [fillStep]
      rw [hstep]
      have hih := ih st (by omega)
      rw [fillLoop] at hih
      rw [hih]
      simp only [TradeState.mk.injEq, cashOf, List.zip_cons_cons, List.map_cons, List.sum_cons]
      refine ⟨by ring, by omega, by omega⟩

/-! ### Claim theorem: per-snapshot fault tolerance -/

/-- C7: if the allocator raises on a single snapshot, the exception is
swallowed, the accumulated trial state is exactly what it was before
that snapshot, and the replay continues with the next snapshot. -/
theorem per_snapshot_failure (alloc : AllocFn) (t : ℤ) (s : Snapshot)
    (rest : List Snapshot) (st : TradeState)
    (h : alloc (min st.remaining t) (extractVenues s) = none) :
    runSnapshots alloc t (s :: rest) st = runSnapshots alloc t rest st := by
  by_cases hr : st.remaining ≤ 0
  · rw [runSnapshots_nonpos alloc t _ hr, runSnapshots_nonpos alloc t _ hr]
  · show (if st.remaining ≤ 0 then st else _) = _
    rw [if_neg hr]
    by_cases hv : extractVenues s = []
    · simp [hv]
    · simp only [if_neg hv, h]

/-- C7 witness: an allocator that always raises leaves the state of a
concrete replay untouched and skips to the next snapshot. -/
theorem per_snapshot_failure_witness :
    (fun (_ : ℤ) (_ : List Venue) => (none : Option (List ℤ × Option ℚ)))
        (min (100 : ℤ) 100)
        (extractVenues ⟨[{ publisher_id := "1", ask_px_00 := 10, ask_sz_00 := 500 }]⟩) = none ∧
    runSnapshots (fun _ _ => none) 100
        [⟨[{ publisher_id := "1", ask_px_00 := 10, ask_sz_00 := 500 }]⟩, ⟨[]⟩] ⟨0, 0, 100⟩ =
      runSnapshots (fun _ _ => none) 100 [⟨[]⟩] ⟨0, 0, 100⟩ :=
  ⟨rfl, per_snapshot_failure (fun _ _ => none) 100
    ⟨[{ publisher_id := "1", ask_px_00 := 10, ask_sz_00 := 500 }]⟩ [⟨[]⟩] ⟨0, 0, 100⟩ rfl⟩

/-! ### Trials and the parameter grid -/

theorem test_strategy_some (alloc : AllocFn) (t : ℤ) {snaps : List Snapshot}
    (h : snaps ≠ []) : ∃ r, test_strategy alloc t snaps = some r := by
  cases snaps with
  | nil => exact absurd rfl h
  | cons s rest => exact ⟨_, rfl⟩

/-- The whole calibration trial is weight-independent, because the
allocator itself is. -/
theorem test_strategy_indep (w w' : Weights) (t : ℤ) (snaps : List Snapshot) :
    test_strategy (allocate w) t snaps = test_strategy (allocate w') t snaps := by
  have he : allocate w = allocate w' :=
    funext fun os => funext fun vs => allocate_indep w w' os vs
  rw [he]

theorem gridStep_keep {t : ℤ} {snaps : List Snapshot} {r : ExecutionResult}
    (p : Option Weights) (q : Option ExecutionResult) (w : Weights)
    (h : test_strategy (allocate w) t snaps = some r) :
    gridStep t snaps (p, some r.total_cash, q) w = (p, some r.total_cash, q) := by
  simp only [gridStep, h]
  rw [if_neg]
  exact lt_irrefl r.total_cash

theorem foldl_gridStep_keep {t : ℤ} {snaps : List Snapshot} {r : ExecutionResult}
    (l : List Weights) (hall : ∀ w ∈ l, test_strategy (allocate w) t snaps = some r)
    (p : Option Weights) (q : Option ExecutionResult) :
    l.foldl (gridStep t snaps) (p, some r.total_cash, q) = (p, some r.total_cash, q) := by
  induction l with
  | nil => rfl
  | cons w l ih =>
    rw [List.foldl_cons, gridStep_keep p q w (hall w (List.mem_cons_self w l))]
    exact ih fun x hx => hall x (List.mem_cons_of_mem _ hx)

/-- `parameter_search` on a non-empty snapshot list: the very first grid
point wins and its (weight-independent) trial result is returned. -/
theorem parameter_search_first {t : ℤ} {snaps : List Snapshot} (h : snaps ≠ []) :
    ∃ r, test_strategy (allocate ⟨0.2, 0.3, 0.1⟩) t snaps = some r ∧
      parameter_search t snaps = (some ⟨0.2, 0.3, 0.1⟩, some r) := by
  obtain ⟨r, hr⟩ := test_strategy_some (allocate ⟨0.2, 0.3, 0.1⟩) t h
  refine ⟨r, hr, ?_⟩
  have hgrid : gridTriples = ⟨0.2, 0.3, 0.1⟩ :: gridTriples.tail := rfl
  have hstep1 : gridStep t snaps (none, none, none) ⟨0.2, 0.3, 0.1⟩ =
      (some ⟨0.2, 0.3, 0.1⟩, some r.total_cash, some r) := by
    simp only [gridStep, hr]
    rw [if_pos (show ltInf r.total_cash none from trivial)]
  have hfold : gridTriples.foldl (gridStep t snaps) (none, none, none) =
      (some ⟨0.2, 0.3, 0.1⟩, some r.total_cash, some r) := by
    rw [hgrid, List.foldl_cons, hstep1]
    exact foldl_gridStep_keep gridTriples.tail
      (fun x _ => by rw [test_strategy_indep x ⟨0.2, 0.3, 0.1⟩]; exact hr) _ _
  unfold parameter_search
  rw [hfold]

/-! ### Claim theorems for the calibration search -/

set_option maxRecDepth 4000 in
/-- C4: `parameter_search` enumerates exactly the 125 documented weight
triples in the documented nesting order, and selects the trial with the
lowest realized total cash, the first strictly smaller trial winning
ties (selection reads `result.total_cash`, the realized cash, not the
Cost-Model score). -/
theorem grid_search_selection :
    gridTriples.length = 125 ∧
    lambda_over_values = [0.2, 0.4, 0.6, 0.8, 1.0] ∧
    lambda_under_values = [0.3, 0.5, 0.7, 0.9, 1.1] ∧
    theta_queue_values = [0.1, 0.3, 0.5, 0.7, 0.9] ∧
    (∀ i j k : ℕ, i < 5 → j < 5 → k < 5 →
      gridTriples.getD (25 * i + 5 * j + k) ⟨0, 0, 0⟩ =
        ⟨lambda_over_values.getD i 0, lambda_under_values.getD j 0,
          theta_queue_values.getD k 0⟩) ∧
    (∀ (t : ℤ) (snaps : List Snapshot), snaps ≠ [] →
      ∃ n r, n < gridTriples.length ∧
        parameter_search t snaps = (some (gridTriples.getD n ⟨0, 0, 0⟩), some r) ∧
        test_strategy (allocate (gridTriples.getD n ⟨0, 0, 0⟩)) t snaps = some r ∧
        (∀ w ∈ gridTriples, ∀ r', test_strategy (allocate w) t snaps = some r' →
          r.total_cash ≤ r'.total_cash) ∧
        (∀ m, m < n → ∀ r',
          test_strategy (allocate (gridTriples.getD m ⟨0, 0, 0⟩)) t snaps = some r' →
          r.total_cash < r'.total_cash)) := by
  refine ⟨rfl, rfl, rfl, rfl, ?_, ?_⟩
  · intro i j k hi hj hk
    interval_cases i <;> interval_cases j <;> interval_cases k <;> rfl
  · intro t snaps h
    obtain ⟨r, hr, hps⟩ := parameter_search_first h
    refine ⟨0, r, by decide, hps, hr, ?_, ?_⟩
    · intro w _ r' hr'
      rw [test_strategy_indep w ⟨0.2, 0.3, 0.1⟩, hr] at hr'
      rw [← Option.some_injective _ hr']
    · intro m hm
      exact absurd hm (Nat.not_lt_zero m)

/-- C4 witness: a concrete one-snapshot replay; the grid cell at
`(i,j,k) = (1,2,3)` carries the documented values, and the selection
conclusion holds at the concrete input. -/
theorem grid_search_selection_witness :
    ((1 : ℕ) < 5 ∧ (2 : ℕ) < 5 ∧ (3 : ℕ) < 5 ∧
      gridTriples.getD (25 * 1 + 5 * 2 + 3) ⟨0, 0, 0⟩ =
        ⟨lambda_over_values.getD 1 0, lambda_under_values.getD 2 0,
          theta_queue_values.getD 3 0⟩) ∧
    (([⟨[{ publisher_id := "1", ask_px_00 := 10, ask_sz_00 := 500 }]⟩] : List Snapshot) ≠ [] ∧
      ∃ n r, n < gridTriples.length ∧
        parameter_search 100 [⟨[{ publisher_id := "1", ask_px_00 := 10, ask_sz_00 := 500 }]⟩] =
          (some (gridTriples.getD n ⟨0, 0, 0⟩), some r) ∧
        test_strategy (allocate (gridTriples.getD n ⟨0, 0, 0⟩)) 100
          [⟨[{ publisher_id := "1", ask_px_00 := 10, ask_sz_00 := 500 }]⟩] = some r ∧
        (∀ w ∈ gridTriples, ∀ r', test_strategy (allocate w) 100
            [⟨[{ publisher_id := "1", ask_px_00 := 10, ask_sz_00 := 500 }]⟩] = some r' →
          r.total_cash ≤ r'.total_cash) ∧
        (∀ m, m < n → ∀ r',
          test_strategy (allocate (gridTriples.getD m ⟨0, 0, 0⟩)) 100
            [⟨[{ publisher_id := "1", ask_px_00 := 10, ask_sz_00 := 500 }]⟩] = some r' →
          r.total_cash < r'.total_cash)) :=
  ⟨⟨by decide, by decide, by decide,
      grid_search_selection.2.2.2.2.1 1 2 3 (by decide) (by decide) (by decide)⟩,
    List.cons_ne_nil _ _,
    grid_search_selection.2.2.2.2.2 100
      [⟨[{ publisher_id := "1", ask_px_00 := 10, ask_sz_00 := 500 }]⟩]
      (List.cons_ne_nil _ _)⟩

/-- C9: because the allocator ignores the weights, every calibration
trial over the same snapshot sequence produces the identical result
(hence identical total cash and shares filled), and on a non-empty
snapshot list `parameter_search` always returns the first grid point
`{lambda_over := 0.2, lambda_under := 0.3, theta_queue := 0.1}` (the
selection comparison is a strict less-than in grid iteration order). -/
theorem calibration_collapse :
    (∀ (t : ℤ) (snaps : List Snapshot) (w w' : Weights),
      test_strategy (allocate w) t snaps = test_strategy (allocate w') t snaps) ∧
    (∀ (t : ℤ) (snaps : List Snapshot), snaps ≠ [] →
      (parameter_search t snaps).1 = some ⟨0.2, 0.3, 0.1⟩) := by
  refine ⟨fun t snaps w w' => test_strategy_indep w w' t snaps, ?_⟩
  intro t snaps h
  obtain ⟨r, -, hps⟩ := parameter_search_first h
  rw [hps]

/-- C9 witness: a concrete one-snapshot replay returns the first grid
point. -/
theorem calibration_collapse_witness :
    ([⟨[{ publisher_id := "1", ask_px_00 := 10, ask_sz_00 := 500 }]⟩] : List Snapshot) ≠ [] ∧
    (parameter_search 100 [⟨[{ publisher_id := "1", ask_px_00 := 10, ask_sz_00 := 500 }]⟩]).1 =
      some ⟨0.2, 0.3, 0.1⟩ :=
  ⟨List.cons_ne_nil _ _,
    calibration_collapse.2 100 [⟨[{ publisher_id := "1", ask_px_00 := 10, ask_sz_00 := 500 }]⟩]
      (List.cons_ne_nil _ _)⟩

/-- C10: the first snapshot whose allocation comes back non-empty fills
the whole remaining order: the split sums to the remaining shares, every
allocated quantity executes in full at its venue, the remaining count
drops to exactly 0 and the replay stops there; snapshots whose
allocation comes back empty leave the state untouched, so all of a
trial's fills come from at most one snapshot. -/
theorem first_fill_consumes_all (w : Weights) (t : ℤ) (s : Snapshot)
    (rest : List Snapshot) (st : TradeState) (split : List ℤ) (cost : Option ℚ)
    (h1 : 0 < st.remaining) (h2 : st.remaining ≤ t)
    (h3 : allocate w (min st.remaining t) (extractVenues s) = some (split, cost))
    (h4 : split ≠ []) :
    split.sum = st.remaining ∧
    fillLoop split (extractVenues s) st =
      ⟨st.total_cash + cashOf (extractVenues s) split, st.shares_filled + st.remaining, 0⟩ ∧
    runSnapshots (allocate w) t (s :: rest) st =
      ⟨st.total_cash + cashOf (extractVenues s) split, st.shares_filled + st.remaining, 0⟩ ∧
    (∀ (s' : Snapshot) (rest' : List Snapshot) (st' : TradeState) (c' : Option ℚ),
      allocate w (min st'.remaining t) (extractVenues s') = some ([], c') →
      runSnapshots (allocate w) t (s' :: rest') st' =
        runSnapshots (allocate w) t rest' st') := by
  have hmin : min st.remaining t = st.remaining := min_eq_left h2
  have h3' : allocate w st.remaining (extractVenues s) = some (split, cost) := by
    rw [← hmin]; exact h3
  obtain ⟨hf, hsum, -⟩ := allocate_nonempty h3' h4
  have hf' : List.Forall₂ (fun v q => 0 ≤ q ∧ q ≤ v.ask_size) (extractVenues s) split :=
    List.Forall₂.imp (fun _ _ hp => ⟨hp.1, hp.2.1⟩) hf
  have hfill : fillLoop split (extractVenues s) st =
      ⟨st.total_cash + cashOf (extractVenues s) split, st.shares_filled + st.remaining, 0⟩ := by
    rw [fillLoop_closed hf' st (le_of_eq hsum), hsum]
    simp
  have hskip : ∀ (s' : Snapshot) (rest' : List Snapshot) (st' : TradeState) (c' : Option ℚ),
      allocate w (min st'.remaining t) (extractVenues s') = some ([], c') →
      runSnapshots (allocate w) t (s' :: rest') st' =
        runSnapshots (allocate w) t rest' st' := by
    intro s' rest' st' c' halloc
    by_cases hr0 : st'.remaining ≤ 0
    · rw [runSnapshots_nonpos _ t _ hr0, runSnapshots_nonpos _ t _ hr0]
    · show (if st'.remaining ≤ 0 then st' else _) = _
      rw [if_neg hr0]
      by_cases hv' : extractVenues s' = []
      · simp [hv']
      · simp only [if_neg hv', halloc]
        have : fillLoop [] (extractVenues s') st' = st' := by
          simp [fillLoop]
        rw [this]
  refine ⟨hsum, hfill, ?_, hskip⟩
  have hv : extractVenues s ≠ [] := by
    intro he
    rw [he] at hf
    cases hf
    exact h4 rfl
  show (if st.remaining ≤ 0 then st else _) = _
  rw [if_neg (not_le.mpr h1)]
  simp only [if_neg hv, h3, hfill]
  exact runSnapshots_nonpos _ t rest (le_refl 0)

/-- C10 witness: one venue of size 500, remaining 100: the allocation
`[100]` executes in full and ends the replay. -/
theorem first_fill_consumes_all_witness :
    (0 : ℤ) < 100 ∧ (100 : ℤ) ≤ 100 ∧
    allocate ⟨0.2, 0.3, 0.1⟩ (min (100 : ℤ) 100)
        (extractVenues ⟨[{ publisher_id := "1", ask_px_00 := 10, ask_sz_00 := 500 }]⟩) =
      some ([100],
        ((allocate ⟨0.2, 0.3, 0.1⟩ (min (100 : ℤ) 100)
          (extractVenues ⟨[{ publisher_id := "1", ask_px_00 := 10, ask_sz_00 := 500 }]⟩)).getD
          ([], none)).2) ∧
    ([100] : List ℤ) ≠ [] ∧
    ([100] : List ℤ).sum = 100 ∧
    runSnapshots (allocate ⟨0.2, 0.3, 0.1⟩) 100
        [⟨[{ publisher_id := "1", ask_px_00 := 10, ask_sz_00 := 500 }]⟩] ⟨0, 0, 100⟩ =
      ⟨0 + cashOf (extractVenues ⟨[{ publisher_id := "1", ask_px_00 := 10, ask_sz_00 := 500 }]⟩)
          [100], 0 + 100, 0⟩ := by
  have h := first_fill_consumes_all ⟨0.2, 0.3, 0.1⟩ 100
    ⟨[{ publisher_id := "1", ask_px_00 := 10, ask_sz_00 := 500 }]⟩ [] ⟨0, 0, 100⟩ [100]
    ((allocate ⟨0.2, 0.3, 0.1⟩ (min (100 : ℤ) 100)
      (extractVenues ⟨[{ publisher_id := "1", ask_px_00 := 10, ask_sz_00 := 500 }]⟩)).getD
      ([], none)).2
    (by decide) (by decide) rfl (by decide)
  exact ⟨by decide, by decide, rfl, by decide, h.1, h.2.2.1⟩

/-! ### The snapshot-to-venue dictionary -/

theorem subset_dictStep (m : List (String × ℚ × ℤ)) (r : MarketRecord) :
    m ⊆ dictStep m r := by
  intro x hx
  rw [dictStep]
  split
  · exact hx
  · exact List.mem_append_left _ hx

theorem mem_dictFoldl :
    ∀ (records : List MarketRecord) (m : List (String × ℚ × ℤ)) (p : String × ℚ × ℤ),
      p ∈ records.foldl dictStep m →
      p ∈ m ∨ ((∀ x ∈ m, x.1 ≠ p.1) ∧
        records.find? (fun r => r.publisher_id == p.1) = some ⟨p.1, p.2.1, p.2.2⟩) := by
  intro records
  induction records with
  | nil => intro m p hp; exact Or.inl hp
  | cons r rs ih =>
    intro m p hp
    rw [List.foldl_cons] at hp
    rcases ih (dictStep m r) p hp with hin | ⟨hnone, hfind⟩
    · by_cases hc : (m.any fun x => x.1 == r.publisher_id) = true
      · rw [dictStep, if_pos hc] at hin
        exact Or.inl hin
      · rw [dictStep, if_neg hc] at hin
        rcases List.mem_append.mp hin with hin' | hin'
        · exact Or.inl hin'
        · have hp' : p = (r.publisher_id, r.ask_px_00, r.ask_sz_00) := by simpa using hin'
          subst hp'
          refine Or.inr ⟨?_, ?_⟩
          · intro x hx hx1
            exact hc (List.any_eq_true.mpr ⟨x, hx, beq_iff_eq.mpr hx1⟩)
          · have hb : (r.publisher_id == r.publisher_id) = true := beq_self_eq_true _
            simp [List.find?_cons, hb]
    · have hkey : ∃ x ∈ dictStep m r, x.1 = r.publisher_id := by
        by_cases hc : (m.any fun x => x.1 == r.publisher_id) = true
        · obtain ⟨x, hx, hxe⟩ := List.any_eq_true.mp hc
          exact ⟨x, subset_dictStep m r hx, beq_iff_eq.mp hxe⟩
        · refine ⟨(r.publisher_id, r.ask_px_00, r.ask_sz_00), ?_, rfl⟩
          rw [dictStep, if_neg hc]
          exact List.mem_append_right _ (List.mem_singleton.mpr rfl)
      obtain ⟨x, hx, hxk⟩ := hkey
      have hne : r.publisher_id ≠ p.1 := hxk ▸ hnone x hx
      refine Or.inr ⟨fun y hy => hnone y (subset_dictStep m r hy), ?_⟩
      have hb : (r.publisher_id == p.1) = false := beq_eq_false_iff_ne.mpr hne
      simp [List.find?_cons, hb, hfind]

theorem keys_nodup_dictFoldl :
    ∀ (records : List MarketRecord) (m : List (String × ℚ × ℤ)),
      (m.map Prod.fst).Nodup → ((records.foldl dictStep m).map Prod.fst).Nodup := by
  intro records
  induction records with
  | nil => intro m h; exact h
  | cons r rs ih =>
    intro m h
    rw [List.foldl_cons]
    apply ih
    by_cases hc : (m.any fun x => x.1 == r.publisher_id) = true
    · rw [dictStep, if_pos hc]; exact h
    · rw [dictStep, if_neg hc, List.map_append]
      rw [List.nodup_append]
      refine ⟨h, by simp, ?_⟩
      intro a ha hb
      simp only [List.map_cons, List.map_nil, List.mem_singleton] at hb
      obtain ⟨x, hx, hxa⟩ := List.mem_map.mp ha
      exact hc (List.any_eq_true.mpr ⟨x, hx, beq_iff_eq.mpr (by rw [hxa, hb])⟩)

theorem keys_mem_dictFoldl :
    ∀ (records : List MarketRecord) (m : List (String × ℚ × ℤ)) (k : String),
      k ∈ (records.foldl dictStep m).map Prod.fst ↔
        k ∈ m.map Prod.fst ∨ k ∈ records.map MarketRecord.publisher_id := by
  intro records
  induction records with
  | nil => intro m k; simp
  | cons r rs ih =>
    intro m k
    rw [List.foldl_cons, ih]
    by_cases hc : (m.any fun x => x.1 == r.publisher_id) = true
    · rw [dictStep, if_pos hc]
      obtain ⟨x, hx, hxe⟩ := List.any_eq_true.mp hc
      have hrk : r.publisher_id ∈ m.map Prod.fst :=
        List.mem_map.mpr ⟨x, hx, beq_iff_eq.mp hxe⟩
      simp only [List.map_cons, List.mem_cons]
      constructor
      · rintro (h | h)
        · exact Or.inl h
        · exact Or.inr (Or.inr h)
      · rintro (h | h | h)
        · exact Or.inl h
        · exact Or.inl (h ▸ hrk)
        · exact Or.inr h
    · rw [dictStep, if_neg hc]
      simp only [List.map_append, List.mem_append, List.map_cons, List.map_nil,
        List.mem_singleton, List.mem_cons]
      tauto

/-! ### Claim theorem for venue construction -/

/-- C8: `create_venues_from_snapshot` produces exactly one `Venue` per
distinct `publisher_id` appearing in the records, keeping the first
observed ask price and size for any identifier that appears more than
once; later duplicates are ignored, never merged or averaged. -/
theorem venue_dedup_first_wins (records : List MarketRecord) :
    ((create_venues_from_snapshot records).map Venue.id).Nodup ∧
    (∀ idv : String,
      idv ∈ (create_venues_from_snapshot records).map Venue.id ↔
        idv ∈ records.map MarketRecord.publisher_id) ∧
    (∀ v ∈ create_venues_from_snapshot records,
      records.find? (fun r => r.publisher_id == v.id) =
        some ⟨v.id, v.ask, v.ask_size⟩) := by
  have hmap : (create_venues_from_snapshot records).map Venue.id =
      (records.foldl dictStep []).map Prod.fst := by
    rw [create_venues_from_snapshot, List.map_map]
    rfl
  refine ⟨?_, ?_, ?_⟩
  · rw [hmap]
    exact keys_nodup_dictFoldl records [] (by simp)
  · intro idv
    rw [hmap, keys_mem_dictFoldl records [] idv]
    simp
  · intro v hv
    rw [create_venues_from_snapshot] at hv
    obtain ⟨p, hp, rfl⟩ := List.mem_map.mp hv
    rcases mem_dictFoldl records [] p hp with h0 | ⟨-, hfind⟩
    · simp at h0
    · exact hfind

/-- C8 witness: three records, the identifier `"7"` twice: the venue
keeps the first observed price 12 / size 300, and the first matching
record is exactly that venue's data. -/
theorem venue_dedup_first_wins_witness :
    ({ id := "7", ask := 12, ask_size := 300 : Venue } ∈
      create_venues_from_snapshot
        [{ publisher_id := "7", ask_px_00 := 12, ask_sz_00 := 300 },
          { publisher_id := "7", ask_px_00 := 11, ask_sz_00 := 200 },
          { publisher_id := "8", ask_px_00 := 9, ask_sz_00 := 100 }]) ∧
    [{ publisher_id := "7", ask_px_00 := 12, ask_sz_00 := 300 : MarketRecord },
        { publisher_id := "7", ask_px_00 := 11, ask_sz_00 := 200 },
        { publisher_id := "8", ask_px_00 := 9, ask_sz_00 := 100 }].find?
      (fun r => r.publisher_id == ({ id := "7", ask := 12, ask_size := 300 : Venue }).id) =
      some { publisher_id := "7", ask_px_00 := 12, ask_sz_00 := 300 } :=
  ⟨List.mem_cons_self _ _,
    (venue_dedup_first_wins
      [{ publisher_id := "7", ask_px_00 := 12, ask_sz_00 := 300 },
        { publisher_id := "7", ask_px_00 := 11, ask_sz_00 := 200 },
        { publisher_id := "8", ask_px_00 := 9, ask_sz_00 := 100 }]).2.2
      { id := "7", ask := 12, ask_size := 300 } (List.mem_cons_self _ _)⟩

end SOR
